import Mathlib

/-!
# Verification of the audio-video-sync alignment core

Shallow embedding of `src/fft.ts`, `src/audio.ts` and `src/sync.ts`:
JavaScript floating-point numbers are modelled as real numbers, complex
samples as `ℂ`, thrown exceptions as `Except.error`, and divergence
(unbounded recursion) as fuel exhaustion (`Option` value `none`).
-/

namespace AVSync

open Complex Finset

/-- Default-zero list lookup, modelling in-range JS array reads
(`arr[i]`); all reads performed by the embedded code are in bounds. -/
def nth {α : Type _} [Zero α] (l : List α) (k : ℕ) : α := l.getD k 0

/-- Embeds `nextPowerOfTwo(n) = 1 << Math.ceil(Math.log2(n))` from `fft.ts`.
For `n ≥ 1` the JS expression computes `2 ^ ⌈log₂ n⌉ = 2 ^ Nat.clog 2 n`;
for `n = 0` (and for the value `-1` that `crossCorrelate` can pass when
both inputs are empty) the JS shift of `-Infinity`/`NaN` yields `1`,
matching `2 ^ Nat.clog 2 0 = 1`. -/
def nextPowerOfTwo (n : ℕ) : ℕ := 2 ^ Nat.clog 2 n

/-- Embeds `padToPowerOfTwo` from `fft.ts`: a zero-filled target of length
`targetLength` with `arr` copied in.  `Float32Array.set` throws a
`RangeError` when the source is longer than the target. -/
def padToPowerOfTwo (arr : List ℝ) (targetLength : ℕ) : Except String (List ℝ) :=
  if arr.length ≤ targetLength then
    Except.ok ((List.range targetLength).map fun i => nth arr i)
  else Except.error "offset is out of bounds"

/-- The twiddle factor `[Math.cos(angle), Math.sin(angle)]` with
`angle = -2 * Math.PI * k / n` from `fft.ts`. -/
noncomputable def twiddle (k n : ℕ) : ℂ :=
  ⟨Real.cos (-2 * Real.pi * k / n), Real.sin (-2 * Real.pi * k / n)⟩

/-- The explicit complex product used in `fft.ts`:
`t = [w.re*z.re - w.im*z.im, w.re*z.im + w.im*z.re]`. -/
def cmul (a b : ℂ) : ℂ := ⟨a.re * b.re - a.im * b.im, a.re * b.im + a.im * b.re⟩

/-- The explicit product `a * conj(b)` used in `crossCorrelate`:
`[a.re*b.re + a.im*b.im, a.im*b.re - a.re*b.im]`. -/
def mulConjJS (a b : ℂ) : ℂ := ⟨a.re * b.re + a.im * b.im, a.im * b.re - a.re * b.im⟩

/-- The error message thrown by `fft`/`fftComplex` on a bad length. -/
def fftLengthError : String := "FFT 输入长度必须是 2 的幂次"

/-- Embeds `fftComplex` from `fft.ts` (Cooley-Tukey on complex input).  The
in-place loop writing `result[k]` and `result[k + n/2]` for `k < n/2` is
expressed as one indexed map over `range n`.  Note that a length-0 input
passes the `n & (n-1)` guard (`0 & -1 = 0` in JS, `0 &&& 0 = 0` here) and
recurses on two empty halves, so the function consumes fuel forever. -/
noncomputable def fftComplex : ℕ → List ℂ → Option (Except String (List ℂ))
  | 0, _ => none
  | fuel + 1, input =>
    let n := input.length
    if n = 1 then some (Except.ok [nth input 0])
    else if n &&& (n - 1) ≠ 0 then some (Except.error fftLengthError)
    else
      let evens := (List.range (n / 2)).map fun i => nth input (2 * i)
      let odds := (List.range (n / 2)).map fun i => nth input (2 * i + 1)
      match fftComplex fuel evens, fftComplex fuel odds with
      | some (Except.ok evenFFT), some (Except.ok oddFFT) =>
        some (Except.ok ((List.range n).map fun k =>
          if k < n / 2 then nth evenFFT k + cmul (twiddle k n) (nth oddFFT k)
          else nth evenFFT (k - n / 2) - cmul (twiddle (k - n / 2) n) (nth oddFFT (k - n / 2))))
      | some (Except.error e), _ => some (Except.error e)
      | none, _ => none
      | _, some (Except.error e) => some (Except.error e)
      | _, none => none

/-- Embeds `fft` from `fft.ts`: the same algorithm duplicated for real input
(`Float32Array`), base case `[[input[0], 0]]`. -/
noncomputable def fft : ℕ → List ℝ → Option (Except String (List ℂ))
  | 0, _ => none
  | fuel + 1, input =>
    let n := input.length
    if n = 1 then some (Except.ok [(⟨nth input 0, 0⟩ : ℂ)])
    else if n &&& (n - 1) ≠ 0 then some (Except.error fftLengthError)
    else
      let evens := (List.range (n / 2)).map fun i => nth input (2 * i)
      let odds := (List.range (n / 2)).map fun i => nth input (2 * i + 1)
      match fft fuel evens, fft fuel odds with
      | some (Except.ok evenFFT), some (Except.ok oddFFT) =>
        some (Except.ok ((List.range n).map fun k =>
          if k < n / 2 then nth evenFFT k + cmul (twiddle k n) (nth oddFFT k)
          else nth evenFFT (k - n / 2) - cmul (twiddle (k - n / 2) n) (nth oddFFT (k - n / 2))))
      | some (Except.error e), _ => some (Except.error e)
      | none, _ => none
      | _, some (Except.error e) => some (Except.error e)
      | _, none => none

/-- Embeds `ifft` from `fft.ts`: conjugate, forward transform, conjugate and
scale by `1/n`.  (The unused `realPart` buffer of the source is dead
code and not modelled.) -/
noncomputable def ifft (fuel : ℕ) (input : List ℂ) : Option (Except String (List ℂ)) :=
  let n := input.length
  let conjugated := input.map fun z => (⟨z.re, -z.im⟩ : ℂ)
  match fftComplex fuel conjugated with
  | some (Except.ok result) =>
    some (Except.ok (result.map fun z => (⟨z.re / n, -z.im / n⟩ : ℂ)))
  | some (Except.error e) => some (Except.error e)
  | none => none

/-- Embeds `crossCorrelate` from `fft.ts`:
`IFFT(FFT(pad(a)) * conj(FFT(pad(b))))`, real parts. -/
noncomputable def crossCorrelate (fuel : ℕ) (signalA signalB : List ℝ) :
    Option (Except String (List ℝ)) :=
  let n := nextPowerOfTwo (signalA.length + signalB.length - 1)
  match padToPowerOfTwo signalA n, padToPowerOfTwo signalB n with
  | Except.ok paddedA, Except.ok paddedB =>
    (match fft fuel paddedA, fft fuel paddedB with
     | some (Except.ok fftA), some (Except.ok fftB) =>
       let product := (List.range fftA.length).map fun i => mulConjJS (nth fftA i) (nth fftB i)
       (match ifft fuel product with
        | some (Except.ok correlation) =>
          some (Except.ok ((List.range n).map fun i => (nth correlation i).re))
        | some (Except.error e) => some (Except.error e)
        | none => none)
     | some (Except.error e), _ => some (Except.error e)
     | none, _ => none
     | _, some (Except.error e) => some (Except.error e)
     | _, none => none)
  | Except.error e, _ => some (Except.error e)
  | _, Except.error e => some (Except.error e)

/-- The scan loop of `findPeakOffset`: `maxValue` starts at `-Infinity`,
so the first element always wins the first comparison; the loop keeps
the index of the strictly greatest value (`>` comparison). -/
noncomputable def findPeakIndexAux : List ℝ → ℕ → ℕ → ℝ → ℕ
  | [], _, bestIdx, _ => bestIdx
  | x :: xs, i, bestIdx, bestVal =>
    if bestVal < x then findPeakIndexAux xs (i + 1) i x
    else findPeakIndexAux xs (i + 1) bestIdx bestVal

/-- Index selection of `findPeakOffset` (on the empty array the loop
never runs and `maxIndex` stays `0`). -/
noncomputable def findPeakIndex : List ℝ → ℕ
  | [] => 0
  | x :: xs => findPeakIndexAux xs 1 0 x

/-- Embeds `findPeakOffset` from `fft.ts`.  `signalBLength` is accepted but
unused, as in the source.  The JS comparison `maxIndex > n / 2` uses
real division; for integer `maxIndex` it agrees with the Nat-division
comparison `n / 2 < maxIndex`. -/
noncomputable def findPeakOffset (correlation : List ℝ) (signalBLength : ℕ) : ℤ :=
  let maxIndex := findPeakIndex correlation
  let n := correlation.length
  if n / 2 < maxIndex then (maxIndex : ℤ) - (n : ℤ) else (maxIndex : ℤ)

/-- Embeds `calculateConfidence` from `fft.ts`. -/
noncomputable def calculateConfidence (signalA signalB correlation : List ℝ)
    (peakIndex : ℤ) : ℝ :=
  let maxCorr := nth correlation
    (if peakIndex < 0 then ((correlation.length : ℤ) + peakIndex).toNat else peakIndex.toNat)
  let energyA := signalA.foldl (fun acc x => acc + x * x) 0
  let energyB := signalB.foldl (fun acc x => acc + x * x) 0
  let normFactor := Real.sqrt (energyA * energyB)
  if normFactor = 0 then 0 else |maxCorr| / normFactor

/-- Embeds `preprocessAudio` from `audio.ts`: subtract the mean, then divide by
the maximum absolute value when it is positive. -/
noncomputable def preprocessAudio (samples : List ℝ) : List ℝ :=
  let total := samples.foldl (· + ·) 0
  let mean := total / (samples.length : ℝ)
  let result := samples.map fun x => x - mean
  let maxAbs := result.foldl (fun m x => max m |x|) 0
  if 0 < maxAbs then result.map fun x => x / maxAbs else result

/-! ## The multi-stream aligner (`sync.ts`)

`Date` values are modelled as real epoch milliseconds.  The external
audio-extraction collaborator (FFmpeg.wasm) is out of scope: a
`VideoInput` carries the sample sequence that extraction would return,
and extraction itself is assumed fault-free. -/

/-- A video stream together with its (already extracted) audio samples. -/
structure VideoInput where
  id : Option String
  originalStartTime : Option ℝ
  samples : List ℝ
deriving Inhabited

/-- Per-stream result, as in `sync.ts`. -/
structure SyncResult where
  id : String
  offsetSeconds : ℝ
  offsetSamples : ℤ
  confidence : ℝ
  correctedStartTime : Option ℝ
deriving Inhabited

/-- Aggregate run result, as in `sync.ts`. -/
structure MultiSyncResult where
  referenceId : String
  results : List SyncResult
  sampleRate : ℕ
  success : Bool
  error : Option String

/-- Embeds JS `s || dflt` on an optional string (`undefined` and `""` are falsy). -/
def jsOrString (s : Option String) (dflt : String) : String :=
  match s with
  | some v => if v = "" then dflt else v
  | none => dflt

/-- Embeds JS `n || dflt` on an optional number (`undefined` and `0` are falsy). -/
def jsOrNat (n : Option ℕ) (dflt : ℕ) : ℕ :=
  match n with
  | some v => if v = 0 then dflt else v
  | none => dflt

/-- The correlate / peak / confidence block of the `syncVideos` loop for
one non-reference stream: returns `(offsetSamples, offsetSeconds,
confidence)`, or propagates a thrown error / divergence. -/
noncomputable def syncOne (fuel : ℕ) (referenceAudio targetAudio : List ℝ)
    (sampleRate : ℕ) : Option (Except String (ℤ × ℝ × ℝ)) :=
  match crossCorrelate fuel referenceAudio targetAudio with
  | some (Except.ok correlation) =>
    let offsetSamples := findPeakOffset correlation targetAudio.length
    let offsetSeconds := (offsetSamples : ℝ) / (sampleRate : ℝ)
    let confidence := calculateConfidence referenceAudio targetAudio correlation offsetSamples
    some (Except.ok (offsetSamples, offsetSeconds, confidence))
  | some (Except.error e) => some (Except.error e)
  | none => none

/-- The `for (let i = 0; ...)` results loop of `syncVideos`, over the
list of stream indices; a thrown error aborts the loop (caught by the
surrounding `try`). -/
noncomputable def syncLoop (fuel : ℕ) (videos : List VideoInput)
    (processed : List (List ℝ)) (refNat : ℕ) (referenceAudio : List ℝ)
    (refStart : Option ℝ) (sampleRate : ℕ) :
    List ℕ → Option (Except String (List SyncResult))
  | [] => some (Except.ok [])
  | i :: rest =>
    let video := videos.getD i default
    let videoId := jsOrString video.id (toString i)
    if i = refNat then
      match syncLoop fuel videos processed refNat referenceAudio refStart sampleRate rest with
      | some (Except.ok tail) =>
        some (Except.ok ({ id := videoId, offsetSeconds := 0, offsetSamples := 0,
                           confidence := 1,
                           correctedStartTime := video.originalStartTime } :: tail))
      | other => other
    else
      match syncOne fuel referenceAudio (processed.getD i []) sampleRate with
      | some (Except.ok (offsetSamples, offsetSeconds, confidence)) =>
        match syncLoop fuel videos processed refNat referenceAudio refStart sampleRate rest with
        | some (Except.ok tail) =>
          some (Except.ok ({ id := videoId, offsetSeconds := offsetSeconds,
                             offsetSamples := offsetSamples, confidence := confidence,
                             correctedStartTime :=
                               refStart.map fun t => t - offsetSeconds * 1000 } :: tail))
        | other => other
      | some (Except.error e) => some (Except.error e)
      | none => none

/-- The sample rate the extracted audio carries: the `sampleRate` option
value, defaulted to 16000 by the `{...DEFAULT_OPTIONS, ...options}`
spread in `audio.ts`. -/
def mainSampleRate (optSampleRate : Option ℕ) : ℕ :=
  match optSampleRate with
  | some r => r
  | none => 16000

/-- The `audioDataList.map(a => preprocessAudio(a.samples))` step of
`syncVideos`. -/
noncomputable def processedOf (videos : List VideoInput) : List (List ℝ) :=
  videos.map fun v => preprocessAudio v.samples

/-- Embeds `AudioVideoSync.syncVideos` from `sync.ts`.  `optSampleRate` is the
`sampleRate` extraction option; inside the run the extracted audio
carries the option's value (default 16000 by option spreading), while the
early-failure paths apply the `|| 16000` fallback.  Extraction faults
are not modelled (extraction is the external collaborator); a `none`
overall result stands for divergence of the numeric core.  The source's
intermediate `const` bindings (`allSuccessful`, `referenceVideo`, ...)
are inlined. -/
noncomputable def syncVideos (fuel : ℕ) (videos : List VideoInput)
    (optSampleRate : Option ℕ) (referenceIndex : ℤ) (minConfidence : ℝ) :
    Option MultiSyncResult :=
  if videos.length < 2 then
    some { referenceId := jsOrString (videos.getD 0 default).id "0"
           results := []
           sampleRate := jsOrNat optSampleRate 16000
           success := false
           error := some "至少需要 2 个视频进行同步" }
  else if referenceIndex < 0 ∨ (videos.length : ℤ) ≤ referenceIndex then
    some { referenceId := ""
           results := []
           sampleRate := jsOrNat optSampleRate 16000
           success := false
           error := some "参考视频索引无效" }
  else
    match syncLoop fuel videos (processedOf videos) referenceIndex.toNat
        ((processedOf videos).getD referenceIndex.toNat [])
        (videos.getD referenceIndex.toNat default).originalStartTime
        (mainSampleRate optSampleRate) (List.range videos.length) with
    | some (Except.ok results) =>
      some { referenceId := jsOrString (videos.getD referenceIndex.toNat default).id
               (toString referenceIndex.toNat)
             results := results
             sampleRate := mainSampleRate optSampleRate
             success := results.all fun r => decide (minConfidence ≤ r.confidence)
             error := if results.all fun r => decide (minConfidence ≤ r.confidence) then none
               else some "部分视频同步置信度过低" }
    | some (Except.error e) =>
      some { referenceId := jsOrString (videos.getD referenceIndex.toNat default).id
               (toString referenceIndex.toNat)
             results := []
             sampleRate := jsOrNat optSampleRate 16000
             success := false
             error := some e }
    | none => none

/-! ## Specification-side definitions -/

/-- Shorthand `E θ = exp (θ i)` for a point on the unit circle. -/
noncomputable def E (θ : ℝ) : ℂ := Complex.exp (θ * Complex.I)

/-- The discrete Fourier transform coefficient
`X_k = ∑_{n<N} x_n exp(-2πikn/N)`. -/
noncomputable def dftCoeff (x : List ℂ) (k : ℕ) : ℂ :=
  ∑ n ∈ Finset.range x.length, nth x n * E (-2 * Real.pi * k * n / x.length)

/-- The discrete Fourier transform as a list. -/
noncomputable def dftList (x : List ℂ) : List ℂ :=
  (List.range x.length).map fun k => dftCoeff x k

/-- The inverse DFT coefficient
`x_j = (∑_{k<N} X_k exp(2πijk/N)) / N`. -/
noncomputable def idftCoeff (x : List ℂ) (j : ℕ) : ℂ :=
  (∑ k ∈ Finset.range x.length, nth x k * E (2 * Real.pi * j * k / x.length)) / x.length

/-- The inverse discrete Fourier transform as a list. -/
noncomputable def idftList (x : List ℂ) : List ℂ :=
  (List.range x.length).map fun j => idftCoeff x j

/-- Signal energy: the sum of squares (spec of the accumulation loops in
`calculateConfidence`). -/
def energy (l : List ℝ) : ℝ := (l.map fun x => x * x).sum

/-- The circular cross-correlation sequence of length `N` that
`crossCorrelate` computes: entry `j` is `∑_{i<N} b_i a_{(i+j) mod N}`. -/
noncomputable def circCorr (a b : List ℝ) (N : ℕ) : List ℝ :=
  (List.range N).map fun j => ∑ i ∈ Finset.range N, nth b i * nth a ((i + j) % N)

/-- The `SyncResult` that the results loop produces for stream index `i`
(assuming the correlate block neither throws nor diverges). -/
noncomputable def entryFor (fuel : ℕ) (videos : List VideoInput)
    (processed : List (List ℝ)) (refNat : ℕ) (referenceAudio : List ℝ)
    (refStart : Option ℝ) (sampleRate : ℕ) (i : ℕ) : SyncResult :=
  if i = refNat then
    { id := jsOrString (videos.getD i default).id (toString i)
      offsetSeconds := 0
      offsetSamples := 0
      confidence := 1
      correctedStartTime := (videos.getD i default).originalStartTime }
  else
    match syncOne fuel referenceAudio (processed.getD i []) sampleRate with
    | some (Except.ok (offsetSamples, offsetSeconds, confidence)) =>
      { id := jsOrString (videos.getD i default).id (toString i)
        offsetSeconds := offsetSeconds
        offsetSamples := offsetSamples
        confidence := confidence
        correctedStartTime := refStart.map fun t => t - offsetSeconds * 1000 }
    | _ => default

/-- The per-stream results produced by a successful main path of
`syncVideos`. -/
noncomputable def mainResults (fuel : ℕ) (videos : List VideoInput)
    (optSampleRate : Option ℕ) (referenceIndex : ℤ) : List SyncResult :=
  (List.range videos.length).map
    (entryFor fuel videos (processedOf videos) referenceIndex.toNat
      ((processedOf videos).getD referenceIndex.toNat [])
      (videos.getD referenceIndex.toNat default).originalStartTime
      (mainSampleRate optSampleRate))

/-! ## Basic list and complex-arithmetic lemmas -/

lemma nth_range_map {α : Type _} [Zero α] (n : ℕ) (f : ℕ → α) (k : ℕ) :
    nth ((List.range n).map f) k = if k < n then f k else 0 := by
  rcases lt_or_ge k n with h | h
  · rw [nth, List.getD_eq_getElem?_getD, List.getElem?_map, List.getElem?_range h]
    simp [h]
  · rw [nth, List.getD_eq_getElem?_getD, List.getElem?_eq_none (by simpa using h)]
    simp [Nat.not_lt.mpr h]

lemma nth_map {α β : Type _} [Zero α] [Zero β] (f : α → β) (hf : f 0 = 0)
    (l : List α) (k : ℕ) : nth (l.map f) k = f (nth l k) := by
  rw [nth, nth, ← hf, List.getD_map]

lemma nth_of_length_le {α : Type _} [Zero α] (l : List α) (k : ℕ)
    (h : l.length ≤ k) : nth l k = 0 := by
  rw [nth, List.getD_eq_getElem?_getD, List.getElem?_eq_none h]
  rfl

lemma range_map_nth {α : Type _} [Zero α] (x : List α) :
    (List.range x.length).map (fun j => nth x j) = x := by
  apply List.ext_getElem
  · simp
  · intro i h1 h2
    simp only [List.getElem_map, List.getElem_range]
    rw [nth, List.getD_eq_getElem?_getD, List.getElem?_eq_getElem (by simpa using h2)]
    rfl

lemma nth_lt {α : Type _} [Zero α] (l : List α) (k : ℕ) (h : k < l.length) :
    nth l k = l[k] := by
  rw [nth, List.getD_eq_getElem?_getD, List.getElem?_eq_getElem h]
  rfl

lemma cmul_eq (a b : ℂ) : cmul a b = a * b := by
  apply Complex.ext <;> simp [cmul, Complex.mul_re, Complex.mul_im]

lemma mulConjJS_eq (a b : ℂ) : mulConjJS a b = a * (starRingEnd ℂ) b := by
  apply Complex.ext <;> simp [mulConjJS, Complex.mul_re, Complex.mul_im] <;> ring

lemma conjPair_eq (z : ℂ) : (⟨z.re, -z.im⟩ : ℂ) = (starRingEnd ℂ) z := by
  apply Complex.ext <;> simp

lemma divPair_eq (z : ℂ) (n : ℕ) :
    (⟨z.re / n, -z.im / n⟩ : ℂ) = (starRingEnd ℂ) z / (n : ℂ) := by
  rcases Nat.eq_zero_or_pos n with h | h
  · subst h
    apply Complex.ext <;> simp
  · have hn : (n : ℝ) ≠ 0 := Nat.cast_ne_zero.mpr h.ne'
    apply Complex.ext <;>
      simp [Complex.div_re, Complex.div_im, Complex.normSq_natCast] <;>
      field_simp <;> ring

/-! ## Lemmas about `E` and the twiddle factors -/

lemma E_add (a b : ℝ) : E (a + b) = E a * E b := by
  simp [E, Complex.ofReal_add, add_mul, Complex.exp_add]

lemma E_zero : E 0 = 1 := by simp [E]

lemma E_int_two_pi (m : ℤ) : E (2 * Real.pi * m) = 1 := by
  have h : ((2 * Real.pi * m : ℝ) : ℂ) * Complex.I
      = (m : ℂ) * (2 * (Real.pi : ℂ) * Complex.I) := by push_cast; ring
  rw [E, h, Complex.exp_int_mul_two_pi_mul_I]

lemma E_neg_pi : E (-Real.pi) = -1 := by
  rw [E, Complex.ofReal_neg, neg_mul, Complex.exp_neg, Complex.exp_pi_mul_I]
  norm_num

lemma E_nat_mul (k : ℕ) (θ : ℝ) : E (k * θ) = E θ ^ k := by
  rw [E, E, Complex.ofReal_mul, Complex.ofReal_natCast, mul_assoc, Complex.exp_nat_mul]

lemma twiddle_eq (k n : ℕ) : twiddle k n = E (-2 * Real.pi * k / n) := by
  rw [E]
  apply Complex.ext
  · rw [Complex.exp_ofReal_mul_I_re]; rfl
  · rw [Complex.exp_ofReal_mul_I_im]; rfl

/-! ## Bitwise lemmas: the `n & (n - 1)` power-of-two test -/

lemma and_two_pow_sub_one (k : ℕ) : 2 ^ k &&& (2 ^ k - 1) = 0 := by
  apply Nat.zero_of_testBit_eq_false
  intro i
  rw [Nat.testBit_land, Nat.testBit_two_pow, Nat.testBit_two_pow_sub_one]
  by_cases h : k = i <;> simp [h]

lemma pow_of_and_pred_eq_zero :
    ∀ n : ℕ, 0 < n → n &&& (n - 1) = 0 → ∃ k, n = 2 ^ k := by
  intro n
  induction n using Nat.strong_induction_on with
  | _ n ih =>
    intro hpos hand
    rcases Nat.lt_or_ge n 2 with h2 | h2
    · exact ⟨0, by omega⟩
    · have hbit : ∀ i, (n.testBit i && (n - 1).testBit i) = false := by
        intro i
        rw [← Nat.testBit_land, hand]
        exact Nat.zero_testBit i
      rcases Nat.even_or_odd n with he | ho
      · obtain ⟨m, hm⟩ := he
        have hmpos : 0 < m := by omega
        have hd1 : n / 2 = m := by omega
        have hd2 : (n - 1) / 2 = m - 1 := by omega
        have hand2 : m &&& (m - 1) = 0 := by
          apply Nat.zero_of_testBit_eq_false
          intro i
          have h := hbit (i + 1)
          rw [Nat.testBit_succ, Nat.testBit_succ, hd1, hd2] at h
          rw [Nat.testBit_land]
          exact h
        obtain ⟨k, hk⟩ := ih m (by omega) hmpos hand2
        exact ⟨k + 1, by rw [pow_succ]; omega⟩
      · obtain ⟨m, hm⟩ := ho
        have hmpos : 0 < m := by omega
        have hd1 : n / 2 = m := by omega
        have hd2 : (n - 1) / 2 = m := by omega
        have : m = 0 := by
          apply Nat.zero_of_testBit_eq_false
          intro i
          have h := hbit (i + 1)
          rw [Nat.testBit_succ, Nat.testBit_succ, hd1, hd2, Bool.and_self] at h
          exact h
        omega

/-! ## Splitting a sum over an even range -/

lemma sum_range_even_odd (M : ℕ) (f : ℕ → ℂ) :
    ∑ m ∈ range (2 * M), f m = ∑ j ∈ range M, f (2 * j) + ∑ j ∈ range M, f (2 * j + 1) := by
  induction M with
  | zero => simp
  | succ M ih =>
    have h2 : 2 * (M + 1) = 2 * M + 1 + 1 := by ring
    rw [h2, Finset.sum_range_succ, Finset.sum_range_succ, ih,
      Finset.sum_range_succ, Finset.sum_range_succ]
    ring

/-! ## Cooley-Tukey computes the DFT -/

lemma dftCoeff_evens (x : List ℂ) (M : ℕ) (k : ℕ) :
    dftCoeff ((List.range M).map fun i => nth x (2 * i)) k
      = ∑ j ∈ range M, nth x (2 * j) * E (-2 * Real.pi * k * j / M) := by
  unfold dftCoeff
  rw [List.length_map, List.length_range]
  refine Finset.sum_congr rfl fun j hj => ?_
  rw [nth_range_map, if_pos (Finset.mem_range.mp hj)]

lemma dftCoeff_odds (x : List ℂ) (M : ℕ) (k : ℕ) :
    dftCoeff ((List.range M).map fun i => nth x (2 * i + 1)) k
      = ∑ j ∈ range M, nth x (2 * j + 1) * E (-2 * Real.pi * k * j / M) := by
  unfold dftCoeff
  rw [List.length_map, List.length_range]
  refine Finset.sum_congr rfl fun j hj => ?_
  rw [nth_range_map, if_pos (Finset.mem_range.mp hj)]

lemma dftCoeff_add_period (y : List ℂ) (M : ℕ) (hM : 0 < M) (hy : y.length = M)
    (k : ℕ) : dftCoeff y (k + M) = dftCoeff y k := by
  have hM0 : (M : ℝ) ≠ 0 := Nat.cast_ne_zero.mpr hM.ne'
  unfold dftCoeff
  rw [hy]
  refine Finset.sum_congr rfl fun j hj => ?_
  congr 1
  have harg : -2 * Real.pi * ((k : ℝ) + (M : ℝ)) * j / M
      = -2 * Real.pi * k * j / M + 2 * Real.pi * ((-(j : ℤ) : ℤ) : ℝ) := by
    push_cast
    field_simp
    ring
  push_cast
  rw [harg, E_add, E_int_two_pi, mul_one]

lemma dftCoeff_split_low (x : List ℂ) (M : ℕ) (hM : 0 < M) (hx : x.length = 2 * M)
    (k : ℕ) :
    dftCoeff x k
      = dftCoeff ((List.range M).map fun i => nth x (2 * i)) k
        + E (-2 * Real.pi * k / ((2 * M : ℕ) : ℝ))
          * dftCoeff ((List.range M).map fun i => nth x (2 * i + 1)) k := by
  have hM0 : (M : ℝ) ≠ 0 := Nat.cast_ne_zero.mpr hM.ne'
  rw [dftCoeff_evens, dftCoeff_odds]
  unfold dftCoeff
  rw [hx, sum_range_even_odd]
  congr 1
  · refine Finset.sum_congr rfl fun j hj => ?_
    congr 1
    congr 1
    push_cast
    field_simp
    ring
  · rw [Finset.mul_sum]
    refine Finset.sum_congr rfl fun j hj => ?_
    have harg : -2 * Real.pi * (k : ℝ) * ((2 * j + 1 : ℕ) : ℝ) / ((2 * M : ℕ) : ℝ)
        = -2 * Real.pi * k / ((2 * M : ℕ) : ℝ) + -2 * Real.pi * k * j / (M : ℝ) := by
      push_cast
      field_simp
      ring
    rw [harg, E_add]
    ring

lemma dftCoeff_split_high (x : List ℂ) (M : ℕ) (hM : 0 < M) (hx : x.length = 2 * M)
    (k : ℕ) :
    dftCoeff x (k + M)
      = dftCoeff ((List.range M).map fun i => nth x (2 * i)) k
        - E (-2 * Real.pi * k / ((2 * M : ℕ) : ℝ))
          * dftCoeff ((List.range M).map fun i => nth x (2 * i + 1)) k := by
  rw [dftCoeff_split_low x M hM hx (k + M)]
  rw [dftCoeff_add_period _ M hM (by simp) k, dftCoeff_add_period _ M hM (by simp) k]
  have harg : -2 * Real.pi * ((k + M : ℕ) : ℝ) / ((2 * M : ℕ) : ℝ)
      = -2 * Real.pi * k / ((2 * M : ℕ) : ℝ) + -Real.pi := by
    have hM0 : (M : ℝ) ≠ 0 := Nat.cast_ne_zero.mpr hM.ne'
    push_cast
    field_simp
    ring
  rw [harg, E_add, E_neg_pi]
  ring

lemma fftComplex_ok : ∀ (d fuel : ℕ) (input : List ℂ), input.length = 2 ^ d →
    d < fuel → fftComplex fuel input = some (Except.ok (dftList input)) := by
  intro d
  induction d with
  | zero =>
    intro fuel input hlen hfuel
    obtain ⟨f, rfl⟩ : ∃ f, fuel = f + 1 := ⟨fuel - 1, by omega⟩
    have hlen1 : input.length = 1 := by simpa using hlen
    rw [fftComplex]
    simp only [hlen1, if_pos]
    have h1 : dftList input = [dftCoeff input 0] := by
      unfold dftList
      rw [hlen1]
      rfl
    have h2 : dftCoeff input 0 = nth input 0 := by
      unfold dftCoeff
      rw [hlen1, Finset.sum_range_one]
      norm_num [E_zero]
    rw [h1, h2]
  | succ d ih =>
    intro fuel input hlen hfuel
    obtain ⟨f, rfl⟩ : ∃ f, fuel = f + 1 := ⟨fuel - 1, by omega⟩
    have hMpos : 0 < 2 ^ d := Nat.two_pow_pos d
    have hlen2 : input.length = 2 * 2 ^ d := by rw [hlen]; ring
    have hne1 : ¬ input.length = 1 := by
      rw [hlen2]
      omega
    have hguard : input.length &&& (input.length - 1) = 0 := by
      rw [hlen]
      exact and_two_pow_sub_one (d + 1)
    have hdiv : input.length / 2 = 2 ^ d := by
      rw [hlen2]
      omega
    rw [fftComplex]
    simp only [hne1, if_false, hguard, hdiv, ne_eq, not_true_eq_false, if_neg,
      not_false_eq_true, ite_false, ite_true]
    rw [ih f _ (by simp) (by omega), ih f _ (by simp) (by omega)]
    refine congrArg (fun l => some (Except.ok l)) ?_
    unfold dftList
    rw [List.length_map, List.length_range]
    refine List.map_congr_left fun k hk => ?_
    have hk2 : k < 2 * 2 ^ d := by
      rw [← hlen2]
      exact (List.mem_range.mp hk)
    by_cases hksm : k < 2 ^ d
    · rw [if_pos hksm, nth_range_map, nth_range_map]
      simp only [List.length_map, List.length_range]
      rw [if_pos hksm, if_pos hksm, cmul_eq, twiddle_eq, hlen2]
      exact (dftCoeff_split_low input (2 ^ d) hMpos hlen2 k).symm
    · rw [if_neg hksm]
      obtain ⟨j, rfl⟩ : ∃ j, k = j + 2 ^ d := ⟨k - 2 ^ d, by omega⟩
      have hj : j < 2 ^ d := by omega
      have hsub : j + 2 ^ d - 2 ^ d = j := by omega
      rw [hsub, nth_range_map, nth_range_map]
      simp only [List.length_map, List.length_range]
      rw [if_pos hj, if_pos hj, cmul_eq, twiddle_eq, hlen2]
      exact (dftCoeff_split_high input (2 ^ d) hMpos hlen2 j).symm

/-! ## The real-input transform agrees with the complex one -/

lemma liftZero : (fun r : ℝ => (⟨r, 0⟩ : ℂ)) 0 = 0 := by
  apply Complex.ext <;> simp

lemma fft_eq_fftComplex : ∀ (fuel : ℕ) (x : List ℝ),
    fft fuel x = fftComplex fuel (x.map fun r => (⟨r, 0⟩ : ℂ)) := by
  intro fuel
  induction fuel with
  | zero => intro x; rfl
  | succ f ih =>
    intro x
    rw [fft, fftComplex]
    simp only [List.length_map]
    by_cases h1 : x.length = 1
    · rw [if_pos h1, if_pos h1]
      rw [nth_map (fun r : ℝ => (⟨r, 0⟩ : ℂ)) liftZero x 0]
    · rw [if_neg h1, if_neg h1]
      by_cases h2 : x.length &&& (x.length - 1) ≠ 0
      · rw [if_pos h2, if_pos h2]
      · rw [if_neg h2, if_neg h2]
        have hevens : (List.range (x.length / 2)).map
              (fun i => nth (x.map fun r => (⟨r, 0⟩ : ℂ)) (2 * i))
            = ((List.range (x.length / 2)).map fun i => nth x (2 * i)).map
              fun r => (⟨r, 0⟩ : ℂ) := by
          rw [List.map_map]
          exact List.map_congr_left fun a _ =>
            nth_map (fun r : ℝ => (⟨r, 0⟩ : ℂ)) liftZero x (2 * a)
        have hodds : (List.range (x.length / 2)).map
              (fun i => nth (x.map fun r => (⟨r, 0⟩ : ℂ)) (2 * i + 1))
            = ((List.range (x.length / 2)).map fun i => nth x (2 * i + 1)).map
              fun r => (⟨r, 0⟩ : ℂ) := by
          rw [List.map_map]
          exact List.map_congr_left fun a _ =>
            nth_map (fun r : ℝ => (⟨r, 0⟩ : ℂ)) liftZero x (2 * a + 1)
        rw [hevens, hodds, ← ih, ← ih]

lemma fft_ok (d fuel : ℕ) (x : List ℝ) (hlen : x.length = 2 ^ d) (hfuel : d < fuel) :
    fft fuel x = some (Except.ok (dftList (x.map fun r => (⟨r, 0⟩ : ℂ)))) := by
  rw [fft_eq_fftComplex]
  exact fftComplex_ok d fuel _ (by simpa using hlen) hfuel

/-! ## The inverse transform computes the inverse DFT -/

lemma E_conj (θ : ℝ) : (starRingEnd ℂ) (E θ) = E (-θ) := by
  rw [E, E, ← Complex.exp_conj]
  congr 1
  rw [map_mul, Complex.conj_I, Complex.conj_ofReal, Complex.ofReal_neg]
  ring

lemma idft_step (X : List ℂ) (k : ℕ) :
    (starRingEnd ℂ) (dftCoeff (X.map fun z => (⟨z.re, -z.im⟩ : ℂ)) k) / ((X.length : ℕ) : ℂ)
      = idftCoeff X k := by
  unfold dftCoeff idftCoeff
  rw [List.length_map]
  congr 1
  rw [map_sum]
  refine Finset.sum_congr rfl fun m _ => ?_
  rw [nth_map _ (by apply Complex.ext <;> simp) X m, conjPair_eq, map_mul,
    Complex.conj_conj, E_conj]
  congr 1
  congr 1
  push_cast
  ring

lemma ifft_ok (d fuel : ℕ) (X : List ℂ) (hlen : X.length = 2 ^ d) (hfuel : d < fuel) :
    ifft fuel X = some (Except.ok (idftList X)) := by
  unfold ifft
  simp only [fftComplex_ok d fuel (X.map fun z => (⟨z.re, -z.im⟩ : ℂ))
    (by simpa using hlen) hfuel]
  refine congrArg (fun l => some (Except.ok l)) ?_
  unfold dftList idftList
  simp only [List.length_map, List.map_map]
  refine List.map_congr_left fun k _ => ?_
  show (⟨(dftCoeff (X.map fun z => (⟨z.re, -z.im⟩ : ℂ)) k).re / (X.length : ℝ),
    -(dftCoeff (X.map fun z => (⟨z.re, -z.im⟩ : ℂ)) k).im / (X.length : ℝ)⟩ : ℂ)
      = idftCoeff X k
  rw [divPair_eq]
  exact idft_step X k

/-! ## Orthogonality of the circle characters and Fourier inversion -/

lemma sum_E_orth (N : ℕ) (hN : 0 < N) (t : ℤ) :
    ∑ k ∈ range N, E (2 * Real.pi * (t : ℝ) * (k : ℝ) / (N : ℝ))
      = if (N : ℤ) ∣ t then (N : ℂ) else 0 := by
  have hN0 : (N : ℝ) ≠ 0 := Nat.cast_ne_zero.mpr hN.ne'
  have hterm : ∀ k : ℕ, E (2 * Real.pi * (t : ℝ) * (k : ℝ) / (N : ℝ))
      = E (2 * Real.pi * (t : ℝ) / (N : ℝ)) ^ k := by
    intro k
    rw [← E_nat_mul]
    congr 1
    push_cast
    ring
  by_cases hdvd : (N : ℤ) ∣ t
  · obtain ⟨m, rfl⟩ := hdvd
    rw [if_pos ⟨m, rfl⟩]
    have hz : E (2 * Real.pi * (((N : ℤ) * m : ℤ) : ℝ) / (N : ℝ)) = 1 := by
      have harg : 2 * Real.pi * (((N : ℤ) * m : ℤ) : ℝ) / (N : ℝ)
          = 2 * Real.pi * ((m : ℤ) : ℝ) := by
        push_cast
        field_simp
        ring
      rw [harg]
      exact E_int_two_pi m
    calc ∑ k ∈ range N, E (2 * Real.pi * (((N : ℤ) * m : ℤ) : ℝ) * (k : ℝ) / (N : ℝ))
        = ∑ _k ∈ range N, (1 : ℂ) :=
          Finset.sum_congr rfl fun k _ => by rw [hterm k, hz, one_pow]
      _ = (N : ℂ) := by simp
  · rw [if_neg hdvd]
    have hz1 : E (2 * Real.pi * (t : ℝ) / (N : ℝ)) ≠ 1 := by
      intro hz
      rw [E, Complex.exp_eq_one_iff] at hz
      obtain ⟨m, hm⟩ := hz
      apply hdvd
      have him : 2 * Real.pi * (t : ℝ) / (N : ℝ) = (m : ℝ) * (2 * Real.pi) := by
        have h := congrArg Complex.im hm
        simpa using h
      have hpi : (2 * Real.pi) ≠ 0 := by positivity
      have ht : (t : ℝ) = (N : ℝ) * (m : ℝ) := by
        field_simp at him
        have him2 : 2 * Real.pi * (t : ℝ) = 2 * Real.pi * ((N : ℝ) * (m : ℝ)) := by
          linear_combination him
        exact mul_left_cancel₀ hpi him2
      exact ⟨m, by exact_mod_cast ht⟩
    have hsum : ∑ k ∈ range N, E (2 * Real.pi * (t : ℝ) * (k : ℝ) / (N : ℝ))
        = ∑ k ∈ range N, E (2 * Real.pi * (t : ℝ) / (N : ℝ)) ^ k :=
      Finset.sum_congr rfl fun k _ => hterm k
    rw [hsum, geom_sum_eq hz1]
    have hzN : E (2 * Real.pi * (t : ℝ) / (N : ℝ)) ^ N = 1 := by
      rw [← hterm N]
      have harg : 2 * Real.pi * (t : ℝ) * (N : ℝ) / (N : ℝ) = 2 * Real.pi * (t : ℝ) := by
        field_simp
      rw [harg]
      exact E_int_two_pi t
    rw [hzN]
    simp

lemma idftCoeff_dft (x : List ℂ) (j : ℕ) (hj : j < x.length) :
    idftCoeff (dftList x) j = nth x j := by
  have hN : 0 < x.length := lt_of_le_of_lt (Nat.zero_le j) hj
  have hN0 : (x.length : ℝ) ≠ 0 := Nat.cast_ne_zero.mpr hN.ne'
  have hNC : (x.length : ℂ) ≠ 0 := Nat.cast_ne_zero.mpr hN.ne'
  unfold idftCoeff
  have hlen : (dftList x).length = x.length := by simp [dftList]
  rw [hlen]
  have h1 : ∀ k ∈ range x.length,
      nth (dftList x) k * E (2 * Real.pi * (j : ℝ) * (k : ℝ) / (x.length : ℝ))
        = ∑ n ∈ range x.length, nth x n
            * E (2 * Real.pi * ((((j : ℤ) - (n : ℤ)) : ℤ) : ℝ) * (k : ℝ) / (x.length : ℝ)) := by
    intro k hk
    have hnth : nth (dftList x) k = dftCoeff x k := by
      unfold dftList
      rw [nth_range_map, if_pos (Finset.mem_range.mp hk)]
    rw [hnth]
    unfold dftCoeff
    rw [Finset.sum_mul]
    refine Finset.sum_congr rfl fun n _ => ?_
    rw [mul_assoc, ← E_add]
    congr 2
    push_cast
    field_simp
    ring
  rw [Finset.sum_congr rfl h1, Finset.sum_comm]
  have h2 : ∀ n ∈ range x.length,
      ∑ k ∈ range x.length,
          nth x n * E (2 * Real.pi * ((((j : ℤ) - (n : ℤ)) : ℤ) : ℝ) * (k : ℝ) / (x.length : ℝ))
        = nth x n * (if (x.length : ℤ) ∣ ((j : ℤ) - (n : ℤ)) then (x.length : ℂ) else 0) := by
    intro n _
    rw [← Finset.mul_sum, sum_E_orth x.length hN ((j : ℤ) - (n : ℤ))]
  rw [Finset.sum_congr rfl h2]
  rw [Finset.sum_eq_single j]
  · rw [if_pos ⟨0, by ring⟩]
    field_simp
  · intro n hn hne
    rw [if_neg, mul_zero]
    intro hdvd
    have h0 : (j : ℤ) - (n : ℤ) = 0 := by
      apply Int.eq_zero_of_abs_lt_dvd hdvd
      have hn' : n < x.length := Finset.mem_range.mp hn
      rw [abs_sub_lt_iff]
      constructor <;> push_cast <;> omega
    exact hne (by omega)
  · intro hj'
    exact absurd (Finset.mem_range.mpr hj) hj'

lemma idft_dft (x : List ℂ) (hx : 0 < x.length) : idftList (dftList x) = x := by
  unfold idftList
  have hlen : (dftList x).length = x.length := by simp [dftList]
  rw [hlen]
  calc (List.range x.length).map (fun j => idftCoeff (dftList x) j)
      = (List.range x.length).map (fun j => nth x j) :=
        List.map_congr_left fun j hjm => idftCoeff_dft x j (List.mem_range.mp hjm)
    _ = x := range_map_nth x

/-! ## What `crossCorrelate` computes: circular correlation -/

lemma pad_ok (arr : List ℝ) (N : ℕ) (h : arr.length ≤ N) :
    padToPowerOfTwo arr N = Except.ok ((List.range N).map fun i => nth arr i) := by
  unfold padToPowerOfTwo
  rw [if_pos h]

lemma nth_pad (arr : List ℝ) (N : ℕ) (h : arr.length ≤ N) (i : ℕ) :
    nth ((List.range N).map fun j => nth arr j) i = nth arr i := by
  rw [nth_range_map]
  by_cases hi : i < N
  · rw [if_pos hi]
  · rw [if_neg hi]
    exact (nth_of_length_le arr i (by omega)).symm

lemma mod_dvd_sub (x N : ℕ) : (N : ℤ) ∣ ((x : ℤ) - ((x % N : ℕ) : ℤ)) := by
  refine ⟨(x : ℤ) / N, ?_⟩
  have h := Int.emod_add_ediv (x : ℤ) (N : ℤ)
  have hcast : ((x % N : ℕ) : ℤ) = (x : ℤ) % (N : ℤ) := by push_cast; rfl
  rw [hcast]
  linarith

lemma mod_unique_dvd (x N n : ℕ) (hN : 0 < N) (hn : n < N)
    (hdvd : (N : ℤ) ∣ ((x : ℤ) - (n : ℤ))) : n = x % N := by
  have h1 : (N : ℤ) ∣ ((x : ℤ) - ((x % N : ℕ) : ℤ)) := mod_dvd_sub x N
  have h2 : (N : ℤ) ∣ (((x % N : ℕ) : ℤ) - (n : ℤ)) := by
    have h3 := dvd_sub hdvd h1
    have h4 : (x : ℤ) - (n : ℤ) - ((x : ℤ) - ((x % N : ℕ) : ℤ))
        = ((x % N : ℕ) : ℤ) - (n : ℤ) := by ring
    rwa [h4] at h3
  have hmod : x % N < N := Nat.mod_lt x hN
  have habs : |(((x % N : ℕ) : ℤ) - (n : ℤ))| < (N : ℤ) := by
    rw [abs_sub_lt_iff]
    constructor <;> push_cast <;> omega
  have h0 := Int.eq_zero_of_abs_lt_dvd h2 habs
  omega

lemma dftCoeff_lift (u : List ℝ) (k : ℕ) :
    dftCoeff (u.map fun r => (⟨r, 0⟩ : ℂ)) k
      = ∑ n ∈ range u.length, ((nth u n : ℝ) : ℂ) * E (-2 * Real.pi * k * n / u.length) := by
  unfold dftCoeff
  rw [List.length_map]
  refine Finset.sum_congr rfl fun n _ => ?_
  congr 1
  rw [nth_map (fun r : ℝ => (⟨r, 0⟩ : ℂ)) liftZero]
  rfl

lemma conj_dftCoeff_lift (v : List ℝ) (k : ℕ) :
    (starRingEnd ℂ) (dftCoeff (v.map fun r => (⟨r, 0⟩ : ℂ)) k)
      = ∑ m ∈ range v.length, ((nth v m : ℝ) : ℂ) * E (2 * Real.pi * k * m / v.length) := by
  rw [dftCoeff_lift, map_sum]
  refine Finset.sum_congr rfl fun m _ => ?_
  rw [map_mul, Complex.conj_ofReal, E_conj]
  congr 1
  congr 1
  ring

lemma idft_product (u v : List ℝ) (N : ℕ) (hN : 0 < N) (hu : u.length = N)
    (hv : v.length = N) (j : ℕ) (hj : j < N) :
    idftCoeff ((List.range N).map fun i =>
        mulConjJS (nth (dftList (u.map fun r => (⟨r, 0⟩ : ℂ))) i)
          (nth (dftList (v.map fun r => (⟨r, 0⟩ : ℂ))) i)) j
      = ((∑ i ∈ range N, nth v i * nth u ((i + j) % N) : ℝ) : ℂ) := by
  have hN0R : (N : ℝ) ≠ 0 := Nat.cast_ne_zero.mpr hN.ne'
  have hN0C : (N : ℂ) ≠ 0 := Nat.cast_ne_zero.mpr hN.ne'
  unfold idftCoeff
  simp only [List.length_map, List.length_range]
  rw [div_eq_iff hN0C]
  have hstep1 : ∀ k ∈ range N,
      nth ((List.range N).map fun i =>
          mulConjJS (nth (dftList (u.map fun r => (⟨r, 0⟩ : ℂ))) i)
            (nth (dftList (v.map fun r => (⟨r, 0⟩ : ℂ))) i)) k
        * E (2 * Real.pi * (j : ℝ) * (k : ℝ) / (N : ℝ))
      = ∑ n ∈ range N, ∑ m ∈ range N,
          ((nth u n : ℝ) : ℂ) * ((nth v m : ℝ) : ℂ)
            * E (2 * Real.pi * ((((m : ℤ) + (j : ℤ) - (n : ℤ)) : ℤ) : ℝ) * (k : ℝ) / (N : ℝ)) := by
    intro k hk
    rw [nth_range_map, if_pos (Finset.mem_range.mp hk)]
    have hdu : nth (dftList (u.map fun r => (⟨r, 0⟩ : ℂ))) k
        = dftCoeff (u.map fun r => (⟨r, 0⟩ : ℂ)) k := by
      unfold dftList
      rw [nth_range_map]
      simp only [List.length_map]
      rw [if_pos (by rw [hu]; exact Finset.mem_range.mp hk)]
    have hdv : nth (dftList (v.map fun r => (⟨r, 0⟩ : ℂ))) k
        = dftCoeff (v.map fun r => (⟨r, 0⟩ : ℂ)) k := by
      unfold dftList
      rw [nth_range_map]
      simp only [List.length_map]
      rw [if_pos (by rw [hv]; exact Finset.mem_range.mp hk)]
    rw [hdu, hdv, mulConjJS_eq, dftCoeff_lift, conj_dftCoeff_lift, hu, hv]
    rw [Finset.sum_mul_sum]
    rw [Finset.sum_mul]
    refine Finset.sum_congr rfl fun n _ => ?_
    rw [Finset.sum_mul]
    refine Finset.sum_congr rfl fun m _ => ?_
    have hE : E (-2 * Real.pi * (k : ℝ) * (n : ℝ) / (N : ℝ))
        * (E (2 * Real.pi * (k : ℝ) * (m : ℝ) / (N : ℝ))
          * E (2 * Real.pi * (j : ℝ) * (k : ℝ) / (N : ℝ)))
        = E (2 * Real.pi * ((((m : ℤ) + (j : ℤ) - (n : ℤ)) : ℤ) : ℝ) * (k : ℝ) / (N : ℝ)) := by
      rw [← E_add, ← E_add]
      congr 1
      push_cast
      field_simp
      ring
    calc ((nth u n : ℝ) : ℂ) * E (-2 * Real.pi * (k : ℝ) * (n : ℝ) / (N : ℝ))
          * (((nth v m : ℝ) : ℂ) * E (2 * Real.pi * (k : ℝ) * (m : ℝ) / (N : ℝ)))
          * E (2 * Real.pi * (j : ℝ) * (k : ℝ) / (N : ℝ))
        = ((nth u n : ℝ) : ℂ) * ((nth v m : ℝ) : ℂ)
            * (E (-2 * Real.pi * (k : ℝ) * (n : ℝ) / (N : ℝ))
              * (E (2 * Real.pi * (k : ℝ) * (m : ℝ) / (N : ℝ))
                * E (2 * Real.pi * (j : ℝ) * (k : ℝ) / (N : ℝ)))) := by ring
      _ = ((nth u n : ℝ) : ℂ) * ((nth v m : ℝ) : ℂ)
            * E (2 * Real.pi * ((((m : ℤ) + (j : ℤ) - (n : ℤ)) : ℤ) : ℝ) * (k : ℝ) / (N : ℝ)) := by
          rw [hE]
  rw [Finset.sum_congr rfl hstep1, Finset.sum_comm]
  have hswap : ∀ n ∈ range N,
      ∑ k ∈ range N, ∑ m ∈ range N,
          ((nth u n : ℝ) : ℂ) * ((nth v m : ℝ) : ℂ)
            * E (2 * Real.pi * ((((m : ℤ) + (j : ℤ) - (n : ℤ)) : ℤ) : ℝ) * (k : ℝ) / (N : ℝ))
        = ∑ m ∈ range N, ∑ k ∈ range N,
          ((nth u n : ℝ) : ℂ) * ((nth v m : ℝ) : ℂ)
            * E (2 * Real.pi * ((((m : ℤ) + (j : ℤ) - (n : ℤ)) : ℤ) : ℝ) * (k : ℝ) / (N : ℝ)) :=
    fun n _ => Finset.sum_comm
  rw [Finset.sum_congr rfl hswap]
  have horth : ∀ n ∈ range N, ∀ m ∈ range N,
      ∑ k ∈ range N,
          ((nth u n : ℝ) : ℂ) * ((nth v m : ℝ) : ℂ)
            * E (2 * Real.pi * ((((m : ℤ) + (j : ℤ) - (n : ℤ)) : ℤ) : ℝ) * (k : ℝ) / (N : ℝ))
        = ((nth u n : ℝ) : ℂ) * ((nth v m : ℝ) : ℂ)
            * (if (N : ℤ) ∣ ((m : ℤ) + (j : ℤ) - (n : ℤ)) then (N : ℂ) else 0) := by
    intro n _ m _
    rw [← Finset.mul_sum, sum_E_orth N hN ((m : ℤ) + (j : ℤ) - (n : ℤ))]
  rw [Finset.sum_congr rfl fun n hn => Finset.sum_congr rfl (horth n hn), Finset.sum_comm]
  have hsingle : ∀ m ∈ range N,
      ∑ n ∈ range N,
          ((nth u n : ℝ) : ℂ) * ((nth v m : ℝ) : ℂ)
            * (if (N : ℤ) ∣ ((m : ℤ) + (j : ℤ) - (n : ℤ)) then (N : ℂ) else 0)
        = ((nth u ((m + j) % N) : ℝ) : ℂ) * ((nth v m : ℝ) : ℂ) * (N : ℂ) := by
    intro m _
    rw [Finset.sum_eq_single ((m + j) % N)]
    · rw [if_pos]
      have hcast : ((m : ℤ) + (j : ℤ) - (((m + j) % N : ℕ) : ℤ))
          = (((m + j : ℕ) : ℤ) - ((((m + j) % N : ℕ) : ℕ) : ℤ)) := by push_cast; ring
      rw [hcast]
      exact mod_dvd_sub (m + j) N
    · intro n hn hne
      rw [if_neg, mul_zero]
      intro hdvd
      have hcast : ((m : ℤ) + (j : ℤ) - (n : ℤ)) = (((m + j : ℕ) : ℤ) - (n : ℤ)) := by
        push_cast; ring
      rw [hcast] at hdvd
      exact hne ((mod_unique_dvd (m + j) N n hN (Finset.mem_range.mp hn) hdvd).symm ▸ rfl)
    · intro hmem
      exact absurd (Finset.mem_range.mpr (Nat.mod_lt (m + j) hN)) hmem
  rw [Finset.sum_congr rfl hsingle]
  push_cast
  rw [Finset.sum_mul]
  exact Finset.sum_congr rfl fun m _ => by ring

lemma crossCorrelate_ok (a b : List ℝ) (ha : a ≠ []) (hb : b ≠ [])
    (fuel : ℕ) (hfuel : Nat.clog 2 (a.length + b.length - 1) < fuel) :
    crossCorrelate fuel a b
      = some (Except.ok (circCorr a b (nextPowerOfTwo (a.length + b.length - 1)))) := by
  have hla : 0 < a.length := List.length_pos.mpr ha
  have hlb : 0 < b.length := List.length_pos.mpr hb
  have hNpow : nextPowerOfTwo (a.length + b.length - 1)
      = 2 ^ Nat.clog 2 (a.length + b.length - 1) := rfl
  have hmN : a.length + b.length - 1 ≤ nextPowerOfTwo (a.length + b.length - 1) := by
    rw [hNpow]
    exact Nat.le_pow_clog (by norm_num) _
  have haN : a.length ≤ nextPowerOfTwo (a.length + b.length - 1) := by omega
  have hbN : b.length ≤ nextPowerOfTwo (a.length + b.length - 1) := by omega
  have hNpos : 0 < nextPowerOfTwo (a.length + b.length - 1) := by
    rw [hNpow]; exact Nat.two_pow_pos _
  unfold crossCorrelate
  simp only [pad_ok a _ haN, pad_ok b _ hbN]
  simp only [fft_ok (Nat.clog 2 (a.length + b.length - 1)) fuel
      ((List.range (nextPowerOfTwo (a.length + b.length - 1))).map fun i => nth a i)
      (by simpa using hNpow) hfuel,
    fft_ok (Nat.clog 2 (a.length + b.length - 1)) fuel
      ((List.range (nextPowerOfTwo (a.length + b.length - 1))).map fun i => nth b i)
      (by simpa using hNpow) hfuel]
  have hplen : (dftList (((List.range (nextPowerOfTwo (a.length + b.length - 1))).map
      fun i => nth a i).map fun r => (⟨r, 0⟩ : ℂ))).length
      = nextPowerOfTwo (a.length + b.length - 1) := by
    simp [dftList]
  rw [hplen]
  rw [ifft_ok (Nat.clog 2 (a.length + b.length - 1)) fuel
    ((List.range (nextPowerOfTwo (a.length + b.length - 1))).map fun i =>
      mulConjJS
        (nth (dftList (((List.range (nextPowerOfTwo (a.length + b.length - 1))).map
          fun i => nth a i).map fun r => (⟨r, 0⟩ : ℂ))) i)
        (nth (dftList (((List.range (nextPowerOfTwo (a.length + b.length - 1))).map
          fun i => nth b i).map fun r => (⟨r, 0⟩ : ℂ))) i))
    (by simpa using hNpow) hfuel]
  refine congrArg (fun l => some (Except.ok l)) ?_
  unfold circCorr
  refine List.map_congr_left fun j hjm => ?_
  have hj : j < nextPowerOfTwo (a.length + b.length - 1) := List.mem_range.mp hjm
  have hid : nth (idftList ((List.range (nextPowerOfTwo (a.length + b.length - 1))).map
      fun i => mulConjJS
        (nth (dftList (((List.range (nextPowerOfTwo (a.length + b.length - 1))).map
          fun i => nth a i).map fun r => (⟨r, 0⟩ : ℂ))) i)
        (nth (dftList (((List.range (nextPowerOfTwo (a.length + b.length - 1))).map
          fun i => nth b i).map fun r => (⟨r, 0⟩ : ℂ))) i))) j
      = idftCoeff ((List.range (nextPowerOfTwo (a.length + b.length - 1))).map
        fun i => mulConjJS
          (nth (dftList (((List.range (nextPowerOfTwo (a.length + b.length - 1))).map
            fun i => nth a i).map fun r => (⟨r, 0⟩ : ℂ))) i)
          (nth (dftList (((List.range (nextPowerOfTwo (a.length + b.length - 1))).map
            fun i => nth b i).map fun r => (⟨r, 0⟩ : ℂ))) i)) j := by
    unfold idftList
    rw [nth_range_map]
    simp only [List.length_map, List.length_range]
    rw [if_pos hj]
  rw [hid, idft_product _ _ _ hNpos (by simp) (by simp) j hj]
  rw [Complex.ofReal_re]
  refine Finset.sum_congr rfl fun i _ => ?_
  rw [nth_pad a _ haN, nth_pad b _ hbN]

/-! ## The peak scan selects the first strict maximum -/

lemma findPeakIndexAux_correct (c : List ℝ) :
    ∀ (len k b : ℕ), c.length - k = len → k ≤ c.length → b < k →
      (∀ j < k, nth c j ≤ nth c b) → (∀ j < b, nth c j < nth c b) →
      findPeakIndexAux (c.drop k) k b (nth c b) < c.length
        ∧ (∀ j < c.length, nth c j ≤ nth c (findPeakIndexAux (c.drop k) k b (nth c b)))
        ∧ ∀ j < findPeakIndexAux (c.drop k) k b (nth c b),
            nth c j < nth c (findPeakIndexAux (c.drop k) k b (nth c b)) := by
  intro len
  induction len with
  | zero =>
    intro k b hlen hk hb hle hlt
    have hk' : k = c.length := by omega
    rw [hk', List.drop_length, findPeakIndexAux]
    exact ⟨by omega, fun j hj => hle j (by omega), hlt⟩
  | succ len ihl =>
    intro k b hlen hk hb hle hlt
    have hklt : k < c.length := by
      rcases Nat.lt_or_ge k c.length with h | h
      · exact h
      · omega
    rw [List.drop_eq_getElem_cons hklt, ← nth_lt c k hklt, findPeakIndexAux]
    by_cases hcmp : nth c b < nth c k
    · rw [if_pos hcmp]
      exact ihl (k + 1) k (by omega) (by omega) (by omega)
        (fun j hj => by
          rcases Nat.lt_or_ge j k with h | h
          · exact le_of_lt (lt_of_le_of_lt (hle j h) hcmp)
          · have : j = k := by omega
            rw [this])
        (fun j hj => lt_of_le_of_lt (hle j hj) hcmp)
    · rw [if_neg hcmp]
      exact ihl (k + 1) b (by omega) (by omega) (by omega)
        (fun j hj => by
          rcases Nat.lt_or_ge j k with h | h
          · exact hle j h
          · have : j = k := by omega
            rw [this]
            exact le_of_not_lt hcmp)
        hlt

lemma findPeakIndex_correct (c : List ℝ) (hc : c ≠ []) :
    findPeakIndex c < c.length
      ∧ (∀ j < c.length, nth c j ≤ nth c (findPeakIndex c))
      ∧ ∀ j < findPeakIndex c, nth c j < nth c (findPeakIndex c) := by
  obtain ⟨x, xs, rfl⟩ := List.exists_cons_of_ne_nil hc
  have h := findPeakIndexAux_correct (x :: xs) ((x :: xs).length - 1) 1 0
    (by omega) (by simp) (by omega)
    (fun j hj => by
      have : j = 0 := by omega
      rw [this])
    (fun j hj => by omega)
  exact h

lemma findPeakOffset_flat (c : List ℝ) (hc : c ≠ []) (hf : ∀ x ∈ c, x = nth c 0)
    (L : ℕ) : findPeakOffset c L = 0 := by
  obtain ⟨hlt, hle, hstrict⟩ := findPeakIndex_correct c hc
  have h0 : findPeakIndex c = 0 := by
    by_contra hne
    have h1 : nth c 0 < nth c (findPeakIndex c) := hstrict 0 (by omega)
    have h2 : nth c (findPeakIndex c) = nth c 0 := by
      apply hf
      rw [nth_lt c _ hlt]
      exact List.getElem_mem hlt
    linarith
  unfold findPeakOffset
  rw [h0]
  simp

/-! ## Confidence lemmas -/

lemma foldl_add_sq (l : List ℝ) :
    ∀ acc : ℝ, l.foldl (fun a x => a + x * x) acc = acc + energy l := by
  induction l with
  | nil => intro acc; simp [energy]
  | cons x xs ih =>
    intro acc
    rw [List.foldl_cons, ih]
    simp only [energy, List.map_cons, List.sum_cons]
    ring

lemma energy_nonneg (l : List ℝ) : 0 ≤ energy l := by
  unfold energy
  apply List.sum_nonneg
  intro x hx
  obtain ⟨y, _, rfl⟩ := List.mem_map.mp hx
  exact mul_self_nonneg y

lemma calculateConfidence_eq (a b corr : List ℝ) (p : ℤ) :
    calculateConfidence a b corr p
      = if Real.sqrt (energy a * energy b) = 0 then 0
        else |nth corr (if p < 0 then ((corr.length : ℤ) + p).toNat else p.toNat)|
          / Real.sqrt (energy a * energy b) := by
  simp only [calculateConfidence, foldl_add_sq, zero_add]

lemma calculateConfidence_zero (a b corr : List ℝ) (p : ℤ)
    (h : energy a = 0 ∨ energy b = 0) : calculateConfidence a b corr p = 0 := by
  rw [calculateConfidence_eq, if_pos]
  rcases h with h | h <;> rw [h] <;> simp

lemma calculateConfidence_formula (a b corr : List ℝ) (p : ℤ)
    (ha : energy a ≠ 0) (hb : energy b ≠ 0) :
    calculateConfidence a b corr p
      = |nth corr (if p < 0 then ((corr.length : ℤ) + p).toNat else p.toNat)|
        / Real.sqrt (energy a * energy b) := by
  rw [calculateConfidence_eq, if_neg]
  have hA : 0 < energy a := lt_of_le_of_ne (energy_nonneg a) (Ne.symm ha)
  have hB : 0 < energy b := lt_of_le_of_ne (energy_nonneg b) (Ne.symm hb)
  have hpos : 0 < Real.sqrt (energy a * energy b) := Real.sqrt_pos.mpr (by positivity)
  exact hpos.ne'

lemma calculateConfidence_nonneg (a b corr : List ℝ) (p : ℤ) :
    0 ≤ calculateConfidence a b corr p := by
  rw [calculateConfidence_eq]
  split
  · exact le_refl 0
  · exact div_nonneg (abs_nonneg _) (Real.sqrt_nonneg _)

/-! ## Preprocessing lemmas -/

lemma preprocessAudio_length (s : List ℝ) : (preprocessAudio s).length = s.length := by
  simp only [preprocessAudio]
  split <;> simp

lemma foldl_add_replicate (n : ℕ) (v : ℝ) :
    ∀ acc : ℝ, (List.replicate n v).foldl (· + ·) acc = acc + n * v := by
  induction n with
  | zero => intro acc; simp
  | succ n ih =>
    intro acc
    rw [List.replicate_succ, List.foldl_cons, ih]
    push_cast
    ring

lemma foldl_max_abs_zero (n : ℕ) :
    (List.replicate n (0 : ℝ)).foldl (fun m x => max m |x|) 0 = 0 := by
  induction n with
  | zero => rfl
  | succ n ih =>
    rw [List.replicate_succ, List.foldl_cons]
    simpa using ih

lemma preprocessAudio_const (n : ℕ) (v : ℝ) (hn : 0 < n) :
    preprocessAudio (List.replicate n v) = List.replicate n 0 := by
  have hn0 : (n : ℝ) ≠ 0 := Nat.cast_ne_zero.mpr hn.ne'
  have hmean : (List.replicate n v).foldl (· + ·) 0
      / ((List.replicate n v).length : ℝ) = v := by
    rw [foldl_add_replicate n v 0, List.length_replicate]
    field_simp
  simp only [preprocessAudio, hmean, List.map_replicate, sub_self, foldl_max_abs_zero,
    lt_irrefl, if_false, ite_false]

lemma energy_replicate_zero (n : ℕ) : energy (List.replicate n 0) = 0 := by
  simp [energy]

lemma preprocessAudio_ne_nil (s : List ℝ) (hs : s ≠ []) : preprocessAudio s ≠ [] := by
  intro h
  apply hs
  have := preprocessAudio_length s
  rw [h] at this
  exact List.length_eq_zero.mp this.symm

/-! ## The orchestration loop of `syncVideos` -/

lemma syncOne_ok (fuel : ℕ) (ra ta : List ℝ) (sr : ℕ) (hra : ra ≠ []) (hta : ta ≠ [])
    (hfuel : Nat.clog 2 (ra.length + ta.length - 1) < fuel) :
    ∃ res, syncOne fuel ra ta sr = some (Except.ok res) := by
  unfold syncOne
  rw [crossCorrelate_ok ra ta hra hta fuel hfuel]
  exact ⟨_, rfl⟩

lemma syncLoop_ok (fuel : ℕ) (videos : List VideoInput) (processed : List (List ℝ))
    (refNat : ℕ) (referenceAudio : List ℝ) (refStart : Option ℝ) (sampleRate : ℕ) :
    ∀ l : List ℕ,
      (∀ i ∈ l, i ≠ refNat →
        ∃ res, syncOne fuel referenceAudio (processed.getD i []) sampleRate
          = some (Except.ok res)) →
      syncLoop fuel videos processed refNat referenceAudio refStart sampleRate l
        = some (Except.ok (l.map
            (entryFor fuel videos processed refNat referenceAudio refStart sampleRate))) := by
  intro l
  induction l with
  | nil => intro _; rfl
  | cons i rest ih =>
    intro h
    have hrest := ih fun j hj hjne => h j (List.mem_cons_of_mem i hj) hjne
    simp only [syncLoop]
    rw [hrest]
    by_cases hi : i = refNat
    · simp only [if_pos hi, List.map_cons, entryFor, hi, eq_self_iff_true, if_true]
    · obtain ⟨res, hres⟩ := h i (List.mem_cons_self i rest) hi
      obtain ⟨offS, offSec, conf⟩ := res
      simp only [if_neg hi, hres, List.map_cons, entryFor]

lemma syncVideos_main (fuel : ℕ) (videos : List VideoInput) (optSampleRate : Option ℕ)
    (referenceIndex : ℤ) (minConfidence : ℝ)
    (h2 : 2 ≤ videos.length) (h0 : 0 ≤ referenceIndex)
    (hlt : referenceIndex < (videos.length : ℤ))
    (hok : ∀ i ∈ List.range videos.length, i ≠ referenceIndex.toNat →
      ∃ res, syncOne fuel ((processedOf videos).getD referenceIndex.toNat [])
        ((processedOf videos).getD i []) (mainSampleRate optSampleRate)
        = some (Except.ok res)) :
    syncVideos fuel videos optSampleRate referenceIndex minConfidence
      = some { referenceId := jsOrString (videos.getD referenceIndex.toNat default).id
                 (toString referenceIndex.toNat)
               results := mainResults fuel videos optSampleRate referenceIndex
               sampleRate := mainSampleRate optSampleRate
               success := (mainResults fuel videos optSampleRate referenceIndex).all
                 fun r => decide (minConfidence ≤ r.confidence)
               error := if (mainResults fuel videos optSampleRate referenceIndex).all
                   (fun r => decide (minConfidence ≤ r.confidence)) then none
                 else some "部分视频同步置信度过低" } := by
  unfold syncVideos
  rw [if_neg (by omega), if_neg (by push_neg; exact ⟨h0, hlt⟩)]
  rw [syncLoop_ok fuel videos (processedOf videos) referenceIndex.toNat
    ((processedOf videos).getD referenceIndex.toNat [])
    (videos.getD referenceIndex.toNat default).originalStartTime
    (mainSampleRate optSampleRate) (List.range videos.length) hok]
  rfl

lemma getD_range_map {α : Type _} (n : ℕ) (f : ℕ → α) (d : α) (k : ℕ) (h : k < n) :
    ((List.range n).map f).getD k d = f k := by
  rw [List.getD_eq_getElem?_getD, List.getElem?_map, List.getElem?_range h]
  rfl

lemma processedOf_getD (videos : List VideoInput) (i : ℕ) (hi : i < videos.length) :
    (processedOf videos).getD i [] = preprocessAudio ((videos.getD i default).samples) := by
  unfold processedOf
  rw [List.getD_eq_getElem?_getD, List.getElem?_map, List.getElem?_eq_getElem hi,
    List.getD_eq_getElem?_getD, List.getElem?_eq_getElem hi]
  rfl

lemma getD_mem (videos : List VideoInput) (i : ℕ) (hi : i < videos.length) :
    videos.getD i default ∈ videos := by
  rw [List.getD_eq_getElem?_getD, List.getElem?_eq_getElem hi]
  exact List.getElem_mem hi

lemma clog_le_self (m : ℕ) : Nat.clog 2 m ≤ m := by
  rw [← Nat.le_pow_iff_clog_le (by norm_num)]
  exact Nat.le_of_lt (Nat.lt_two_pow m)

lemma entryFor_ref_confidence (fuel : ℕ) (videos : List VideoInput)
    (processed : List (List ℝ)) (refNat : ℕ) (referenceAudio : List ℝ)
    (refStart : Option ℝ) (sampleRate : ℕ) :
    (entryFor fuel videos processed refNat referenceAudio refStart sampleRate
      refNat).confidence = 1 := by
  simp [entryFor]

lemma fft_empty_diverges : ∀ fuel, fft fuel ([] : List ℝ) = none := by
  intro fuel
  induction fuel with
  | zero => rfl
  | succ f ih =>
    rw [fft]
    simp only [List.length_nil]
    rw [if_neg (by norm_num), if_neg (by decide)]
    simp only [Nat.zero_div, List.range_zero, List.map_nil]
    rw [ih]

lemma fftComplex_empty_diverges : ∀ fuel, fftComplex fuel ([] : List ℂ) = none := by
  intro fuel
  induction fuel with
  | zero => rfl
  | succ f ih =>
    rw [fftComplex]
    simp only [List.length_nil]
    rw [if_neg (by norm_num), if_neg (by decide)]
    simp only [Nat.zero_div, List.range_zero, List.map_nil]
    rw [ih]

lemma fft_not_pow_two (x : List ℝ) (fuel : ℕ) (hpos : 0 < x.length)
    (hnp : ¬ ∃ k, x.length = 2 ^ k) :
    fft (fuel + 1) x = some (Except.error fftLengthError) := by
  have hne1 : ¬ x.length = 1 := fun h => hnp ⟨0, by rw [h]; norm_num⟩
  have hguard : x.length &&& (x.length - 1) ≠ 0 := by
    intro h
    obtain ⟨k, hk⟩ := pow_of_and_pred_eq_zero x.length hpos h
    exact hnp ⟨k, hk⟩
  rw [fft]
  simp only [if_neg hne1, if_pos hguard]

lemma fftComplex_not_pow_two (x : List ℂ) (fuel : ℕ) (hpos : 0 < x.length)
    (hnp : ¬ ∃ k, x.length = 2 ^ k) :
    fftComplex (fuel + 1) x = some (Except.error fftLengthError) := by
  have hne1 : ¬ x.length = 1 := fun h => hnp ⟨0, by rw [h]; norm_num⟩
  have hguard : x.length &&& (x.length - 1) ≠ 0 := by
    intro h
    obtain ⟨k, hk⟩ := pow_of_and_pred_eq_zero x.length hpos h
    exact hnp ⟨k, hk⟩
  rw [fftComplex]
  simp only [if_neg hne1, if_pos hguard]

lemma three_not_pow_two : ¬ ∃ k, (3 : ℕ) = 2 ^ k := by
  rintro ⟨k, hk⟩
  rcases k with _ | _ | k
  · norm_num at hk
  · norm_num at hk
  · have h1 : 1 ≤ 2 ^ k := Nat.one_le_two_pow
    have h4 : 2 ^ (k + 2) = 4 * 2 ^ k := by ring
    omega

/-! ## Claim theorems -/

/-- C2: for every input of length that is not a power of two and nonzero,
`fft` and `fftComplex` throw the length error; but on the empty input
(length 0, explicitly included in the claim) both pass the `n & (n-1)`
guard and recurse forever on empty halves (modelled as running out of any
amount of fuel), so the claimed length error is never thrown there —
evidence for the `code_bug` verdict. -/
theorem C2_fft_length_guard :
    (∀ fuel, fft fuel ([] : List ℝ) = none)
      ∧ (∀ fuel, fftComplex fuel ([] : List ℂ) = none)
      ∧ (∀ (x : List ℝ) (fuel : ℕ), 0 < x.length → (¬ ∃ k, x.length = 2 ^ k) →
          fft (fuel + 1) x = some (Except.error fftLengthError))
      ∧ (∀ (x : List ℂ) (fuel : ℕ), 0 < x.length → (¬ ∃ k, x.length = 2 ^ k) →
          fftComplex (fuel + 1) x = some (Except.error fftLengthError)) :=
  ⟨fft_empty_diverges, fftComplex_empty_diverges, fft_not_pow_two, fftComplex_not_pow_two⟩

theorem C2_fft_length_guard_witness :
    fft 1 [(1 : ℝ), 1, 1] = some (Except.error fftLengthError)
      ∧ fft 5 ([] : List ℝ) = none := by
  constructor
  · exact C2_fft_length_guard.2.2.1 [(1 : ℝ), 1, 1] 0 (by norm_num)
      (by simpa using three_not_pow_two)
  · exact C2_fft_length_guard.1 5

/-- C3: on a non-empty correlation sequence, `findPeakOffset` selects the
index of the strictly greatest value (ties to the earliest index, strict
`>` scan), maps it to a signed lag by `i - N` when `i > N/2` and `i`
otherwise, and a flat all-equal sequence yields offset 0. -/
theorem C3_findPeakOffset_spec (c : List ℝ) (L : ℕ) (hc : c ≠ []) :
    findPeakIndex c < c.length
      ∧ (∀ j < c.length, nth c j ≤ nth c (findPeakIndex c))
      ∧ (∀ j < findPeakIndex c, nth c j < nth c (findPeakIndex c))
      ∧ findPeakOffset c L = (if c.length / 2 < findPeakIndex c
          then (findPeakIndex c : ℤ) - (c.length : ℤ) else (findPeakIndex c : ℤ))
      ∧ ((∀ x ∈ c, x = nth c 0) → findPeakOffset c L = 0) := by
  obtain ⟨h1, h2, h3⟩ := findPeakIndex_correct c hc
  exact ⟨h1, h2, h3, rfl, fun hf => findPeakOffset_flat c hc hf L⟩

theorem C3_findPeakOffset_spec_witness :
    findPeakIndex [(1 : ℝ), 2] < ([(1 : ℝ), 2]).length
      ∧ (∀ j < ([(1 : ℝ), 2]).length,
          nth [(1 : ℝ), 2] j ≤ nth [(1 : ℝ), 2] (findPeakIndex [(1 : ℝ), 2]))
      ∧ (∀ j < findPeakIndex [(1 : ℝ), 2],
          nth [(1 : ℝ), 2] j < nth [(1 : ℝ), 2] (findPeakIndex [(1 : ℝ), 2]))
      ∧ findPeakOffset [(1 : ℝ), 2] 0 = (if ([(1 : ℝ), 2]).length / 2 < findPeakIndex [(1 : ℝ), 2]
          then (findPeakIndex [(1 : ℝ), 2] : ℤ) - (([(1 : ℝ), 2]).length : ℤ)
          else (findPeakIndex [(1 : ℝ), 2] : ℤ))
      ∧ ((∀ x ∈ [(1 : ℝ), 2], x = nth [(1 : ℝ), 2] 0) → findPeakOffset [(1 : ℝ), 2] 0 = 0) :=
  C3_findPeakOffset_spec [(1 : ℝ), 2] 0 (by simp)

/-- C4: for an in-range peak offset (negative offsets mapping to circular
index `N + offset`), `calculateConfidence` returns 0 exactly when either
signal energy (sum of squares) is 0, otherwise returns
`|peakValue| / sqrt(energyA * energyB)`, and is never negative. -/
theorem C4_confidence_spec (a b corr : List ℝ) (p : ℤ)
    (hp0 : -(corr.length : ℤ) ≤ p) (hp1 : p < (corr.length : ℤ)) :
    (energy a = 0 ∨ energy b = 0 → calculateConfidence a b corr p = 0)
      ∧ (energy a ≠ 0 → energy b ≠ 0 →
          calculateConfidence a b corr p
            = |nth corr (if p < 0 then ((corr.length : ℤ) + p).toNat else p.toNat)|
              / Real.sqrt (energy a * energy b))
      ∧ 0 ≤ calculateConfidence a b corr p :=
  ⟨fun h => calculateConfidence_zero a b corr p h,
   fun ha hb => calculateConfidence_formula a b corr p ha hb,
   calculateConfidence_nonneg a b corr p⟩

theorem C4_confidence_spec_witness :
    (energy [(1 : ℝ)] = 0 ∨ energy [(2 : ℝ)] = 0 →
        calculateConfidence [(1 : ℝ)] [(2 : ℝ)] [(3 : ℝ)] 0 = 0)
      ∧ (energy [(1 : ℝ)] ≠ 0 → energy [(2 : ℝ)] ≠ 0 →
          calculateConfidence [(1 : ℝ)] [(2 : ℝ)] [(3 : ℝ)] 0
            = |nth [(3 : ℝ)] (if (0 : ℤ) < 0 then ((([(3 : ℝ)]).length : ℤ) + 0).toNat
                else (0 : ℤ).toNat)|
              / Real.sqrt (energy [(1 : ℝ)] * energy [(2 : ℝ)]))
      ∧ 0 ≤ calculateConfidence [(1 : ℝ)] [(2 : ℝ)] [(3 : ℝ)] 0 :=
  C4_confidence_spec [(1 : ℝ)] [(2 : ℝ)] [(3 : ℝ)] 0 (by norm_num) (by norm_num)

/-- C7: for non-empty inputs (and enough fuel for the recursion),
`crossCorrelate` succeeds and its result has length
`nextPowerOfTwo(lenA + lenB - 1)`, which is a power of two and at least
`lenA + lenB - 1`. -/
theorem C7_crossCorrelate_length (a b : List ℝ) (fuel : ℕ) (ha : a ≠ []) (hb : b ≠ [])
    (hfuel : a.length + b.length ≤ fuel) :
    ∃ r, crossCorrelate fuel a b = some (Except.ok r)
      ∧ r.length = nextPowerOfTwo (a.length + b.length - 1)
      ∧ (∃ k, r.length = 2 ^ k)
      ∧ a.length + b.length - 1 ≤ r.length := by
  have hla : 0 < a.length := List.length_pos.mpr ha
  have hlb : 0 < b.length := List.length_pos.mpr hb
  have hfa : Nat.clog 2 (a.length + b.length - 1) < fuel := by
    have := clog_le_self (a.length + b.length - 1)
    omega
  refine ⟨circCorr a b (nextPowerOfTwo (a.length + b.length - 1)),
    crossCorrelate_ok a b ha hb fuel hfa, ?_, ?_, ?_⟩
  · simp [circCorr]
  · exact ⟨Nat.clog 2 (a.length + b.length - 1), by simp [circCorr, nextPowerOfTwo]⟩
  · have h := Nat.le_pow_clog (b := 2) (by norm_num) (a.length + b.length - 1)
    simpa [circCorr, nextPowerOfTwo] using h

theorem C7_crossCorrelate_length_witness :
    ∃ r, crossCorrelate 2 [(1 : ℝ)] [(1 : ℝ)] = some (Except.ok r)
      ∧ r.length = nextPowerOfTwo (([(1 : ℝ)]).length + ([(1 : ℝ)]).length - 1)
      ∧ (∃ k, r.length = 2 ^ k)
      ∧ ([(1 : ℝ)]).length + ([(1 : ℝ)]).length - 1 ≤ r.length :=
  C7_crossCorrelate_length [(1 : ℝ)] [(1 : ℝ)] 2 (by simp) (by simp) (by simp)

/-- C8: for every fuel and every real input, the real entry point `fft`
produces exactly the same outcome (result, thrown error, or divergence)
as `fftComplex` applied to the input with explicit zero imaginary
components; in the exact-real model, "bit-for-bit within floating
tolerance" is equality. -/
theorem C8_fft_real_equals_complex :
    ∀ (fuel : ℕ) (x : List ℝ),
      fft fuel x = fftComplex fuel (x.map fun r => (⟨r, 0⟩ : ℂ)) :=
  fft_eq_fftComplex

/-- C9: for every power-of-two-length real sequence, applying `ifft` to
the result of `fft` recovers the input exactly (in the exact-real
model), i.e. the round-trip law holds. -/
theorem C9_fft_ifft_roundtrip (x : List ℝ) (d fuel : ℕ)
    (hlen : x.length = 2 ^ d) (hfuel : d < fuel) :
    ∃ F out, fft fuel x = some (Except.ok F) ∧ ifft fuel F = some (Except.ok out)
      ∧ out = x.map fun r => (⟨r, 0⟩ : ℂ) := by
  refine ⟨dftList (x.map fun r => (⟨r, 0⟩ : ℂ)), x.map fun r => (⟨r, 0⟩ : ℂ),
    fft_ok d fuel x hlen hfuel, ?_, rfl⟩
  have hlen2 : (dftList (x.map fun r => (⟨r, 0⟩ : ℂ))).length = 2 ^ d := by
    simp [dftList, hlen]
  rw [ifft_ok d fuel _ hlen2 hfuel]
  rw [idft_dft _ (by simp only [List.length_map, hlen]; exact Nat.two_pow_pos d)]

theorem C9_fft_ifft_roundtrip_witness :
    ∃ F out, fft 2 [(3 : ℝ), 5] = some (Except.ok F) ∧ ifft 2 F = some (Except.ok out)
      ∧ out = [(3 : ℝ), 5].map fun r => (⟨r, 0⟩ : ℂ) :=
  C9_fft_ifft_roundtrip [(3 : ℝ), 5] 1 2 rfl (by norm_num)

/-- C10: preprocessing a non-empty constant sequence (any value, also
nonzero) yields the all-zero sequence of the same length; consequently
its energy is 0 and any confidence computed against it is exactly 0. -/
theorem C10_preprocess_constant (n : ℕ) (v : ℝ) (hn : 0 < n) :
    preprocessAudio (List.replicate n v) = List.replicate n 0
      ∧ energy (preprocessAudio (List.replicate n v)) = 0
      ∧ ∀ (b corr : List ℝ) (p : ℤ),
          calculateConfidence (preprocessAudio (List.replicate n v)) b corr p = 0 := by
  have h := preprocessAudio_const n v hn
  refine ⟨h, ?_, ?_⟩
  · rw [h]
    exact energy_replicate_zero n
  · intro b corr p
    apply calculateConfidence_zero
    left
    rw [h]
    exact energy_replicate_zero n

theorem C10_preprocess_constant_witness :
    preprocessAudio (List.replicate 3 (2 : ℝ)) = List.replicate 3 0
      ∧ energy (preprocessAudio (List.replicate 3 (2 : ℝ))) = 0
      ∧ ∀ (b corr : List ℝ) (p : ℤ),
          calculateConfidence (preprocessAudio (List.replicate 3 (2 : ℝ))) b corr p = 0 :=
  C10_preprocess_constant 3 2 (by norm_num)

/-- C6: with fewer than 2 streams, or a reference index outside
`[0, streamCount)`, `syncVideos` returns (for any fuel, i.e. before any
computation, and without throwing) a failed run result: `success =
false`, an empty results list, and a non-empty error message. -/
theorem C6_precondition_failures (fuel : ℕ) (videos : List VideoInput)
    (optSampleRate : Option ℕ) (referenceIndex : ℤ) (minConfidence : ℝ)
    (h : videos.length < 2 ∨ referenceIndex < 0 ∨ (videos.length : ℤ) ≤ referenceIndex) :
    ∃ r, syncVideos fuel videos optSampleRate referenceIndex minConfidence = some r
      ∧ r.success = false ∧ r.results = [] ∧ ∃ msg, r.error = some msg ∧ msg ≠ "" := by
  unfold syncVideos
  by_cases h1 : videos.length < 2
  · rw [if_pos h1]
    exact ⟨_, rfl, rfl, rfl, "至少需要 2 个视频进行同步", rfl, by decide⟩
  · have h2 : referenceIndex < 0 ∨ (videos.length : ℤ) ≤ referenceIndex := by tauto
    rw [if_neg h1, if_pos h2]
    exact ⟨_, rfl, rfl, rfl, "参考视频索引无效", rfl, by decide⟩

theorem C6_precondition_failures_witness :
    ∃ r, syncVideos 0 ([] : List VideoInput) none 0 0 = some r
      ∧ r.success = false ∧ r.results = [] ∧ ∃ msg, r.error = some msg ∧ msg ≠ "" :=
  C6_precondition_failures 0 [] none 0 0 (Or.inl (by simp))

/-- C5: a run over at least 2 non-silent streams with a valid reference
index (and a confidence threshold at most 1, as the configuration space
prescribes) returns a full results list — one entry per input stream —
whose success flag is true exactly when every non-reference entry's
confidence reaches `minConfidence`; a false flag only attaches a
diagnostic message, a true flag attaches none. -/
theorem C5_success_policy (fuel : ℕ) (videos : List VideoInput) (optSampleRate : Option ℕ)
    (referenceIndex : ℤ) (minConfidence : ℝ)
    (h2 : 2 ≤ videos.length) (h0 : 0 ≤ referenceIndex)
    (hlt : referenceIndex < (videos.length : ℤ))
    (hminC : minConfidence ≤ 1)
    (hne : ∀ v ∈ videos, v.samples ≠ [])
    (hfuel : ∀ u ∈ videos, ∀ v ∈ videos, u.samples.length + v.samples.length ≤ fuel) :
    ∃ r, syncVideos fuel videos optSampleRate referenceIndex minConfidence = some r
      ∧ r.results.length = videos.length
      ∧ (r.success = true ↔ ∀ j < videos.length, j ≠ referenceIndex.toNat →
          minConfidence ≤ (r.results.getD j default).confidence)
      ∧ (r.success = true → r.error = none)
      ∧ (r.success = false → r.error = some "部分视频同步置信度过低") := by
  have hrefNat : referenceIndex.toNat < videos.length := by omega
  have hrefmem := getD_mem videos referenceIndex.toNat hrefNat
  have hok : ∀ i ∈ List.range videos.length, i ≠ referenceIndex.toNat →
      ∃ res, syncOne fuel ((processedOf videos).getD referenceIndex.toNat [])
        ((processedOf videos).getD i []) (mainSampleRate optSampleRate)
        = some (Except.ok res) := by
    intro i hi hine
    have hi' : i < videos.length := List.mem_range.mp hi
    have himem := getD_mem videos i hi'
    rw [processedOf_getD videos _ hrefNat, processedOf_getD videos i hi']
    apply syncOne_ok
    · exact preprocessAudio_ne_nil _ (hne _ hrefmem)
    · exact preprocessAudio_ne_nil _ (hne _ himem)
    · rw [preprocessAudio_length, preprocessAudio_length]
      have hfl := hfuel _ hrefmem _ himem
      have hc := clog_le_self ((videos.getD referenceIndex.toNat default).samples.length
        + (videos.getD i default).samples.length - 1)
      have hlr : 0 < (videos.getD referenceIndex.toNat default).samples.length :=
        List.length_pos.mpr (hne _ hrefmem)
      omega
  have hmain := syncVideos_main fuel videos optSampleRate referenceIndex minConfidence
    h2 h0 hlt hok
  refine ⟨_, hmain, ?_, ?_, ?_, ?_⟩
  · simp [mainResults]
  · dsimp only
    rw [List.all_eq_true]
    constructor
    · intro hs j hj hjne
      have hmem : entryFor fuel videos (processedOf videos) referenceIndex.toNat
          ((processedOf videos).getD referenceIndex.toNat [])
          (videos.getD referenceIndex.toNat default).originalStartTime
          (mainSampleRate optSampleRate) j
            ∈ mainResults fuel videos optSampleRate referenceIndex := by
        unfold mainResults
        exact List.mem_map_of_mem _ (List.mem_range.mpr hj)
      have hsj := hs _ hmem
      rw [decide_eq_true_eq] at hsj
      show minConfidence ≤ ((mainResults fuel videos optSampleRate
        referenceIndex).getD j default).confidence
      rwa [mainResults, getD_range_map _ _ _ j hj]
    · intro hall e he
      rw [decide_eq_true_eq]
      rw [mainResults] at he
      obtain ⟨j, hjr, rfl⟩ := List.mem_map.mp he
      have hj : j < videos.length := List.mem_range.mp hjr
      by_cases hjref : j = referenceIndex.toNat
      · rw [hjref, entryFor_ref_confidence]
        exact hminC
      · have hthis := hall j hj hjref
        rwa [show (mainResults fuel videos optSampleRate referenceIndex).getD j default
            = entryFor fuel videos (processedOf videos) referenceIndex.toNat
              ((processedOf videos).getD referenceIndex.toNat [])
              (videos.getD referenceIndex.toNat default).originalStartTime
              (mainSampleRate optSampleRate) j
          from by rw [mainResults, getD_range_map _ _ _ j hj]] at hthis
  · dsimp only
    intro hs
    rw [if_pos hs]
  · dsimp only
    intro hs
    rw [if_neg]
    intro hc
    rw [hs] at hc
    exact Bool.false_ne_true hc

theorem C5_success_policy_witness :
    ∃ r, syncVideos 2 [⟨some "a", none, [(1 : ℝ)]⟩, ⟨some "b", none, [(1 : ℝ)]⟩]
        none 0 (3 / 10) = some r
      ∧ r.results.length = ([⟨some "a", none, [(1 : ℝ)]⟩,
          ⟨some "b", none, [(1 : ℝ)]⟩] : List VideoInput).length
      ∧ (r.success = true ↔ ∀ j < ([⟨some "a", none, [(1 : ℝ)]⟩,
            ⟨some "b", none, [(1 : ℝ)]⟩] : List VideoInput).length, j ≠ (0 : ℤ).toNat →
          (3 / 10 : ℝ) ≤ (r.results.getD j default).confidence)
      ∧ (r.success = true → r.error = none)
      ∧ (r.success = false → r.error = some "部分视频同步置信度过低") :=
  C5_success_policy 2 [⟨some "a", none, [(1 : ℝ)]⟩, ⟨some "b", none, [(1 : ℝ)]⟩]
    none 0 (3 / 10) (by norm_num) (by norm_num) (by norm_num) (by norm_num)
    (by
      intro v hv
      simp only [List.mem_cons, List.not_mem_nil, or_false, List.mem_singleton] at hv
      rcases hv with rfl | rfl <;> simp)
    (by
      intro u hu v hv
      simp only [List.mem_cons, List.not_mem_nil, or_false, List.mem_singleton] at hu hv
      rcases hu with rfl | rfl <;> rcases hv with rfl | rfl <;> simp)

lemma nth_aImp (k : ℕ) (hk : k ≠ 0) : nth [(1 : ℝ), 0, 0, 0, 0, 0, 0, 0] k = 0 := by
  by_cases h8 : k < 8
  · interval_cases k <;> first | rfl | exact absurd rfl hk
  · exact nth_of_length_le _ k (by simp; omega)

lemma nth_bImp (k : ℕ) (hk : k ≠ 2) : nth [(0 : ℝ), 0, 1, 0, 0, 0, 0, 0] k = 0 := by
  by_cases h8 : k < 8
  · interval_cases k <;> first | rfl | exact absurd rfl hk
  · exact nth_of_length_le _ k (by simp; omega)

lemma clog_two_fifteen : Nat.clog 2 15 = 4 := by
  have h1 : Nat.clog 2 15 ≤ 4 := (Nat.le_pow_iff_clog_le (by norm_num)).mp (by norm_num)
  have h2 : 3 < Nat.clog 2 15 := by
    rw [← Nat.pow_lt_iff_lt_clog (by norm_num)]
    norm_num
  omega

lemma circCorr_impulse :
    circCorr [(1 : ℝ), 0, 0, 0, 0, 0, 0, 0] [(0 : ℝ), 0, 1, 0, 0, 0, 0, 0] 16
      = (List.range 16).map fun j => if j = 14 then (1 : ℝ) else 0 := by
  unfold circCorr
  refine List.map_congr_left fun j hjm => ?_
  have hj16 : j < 16 := List.mem_range.mp hjm
  rw [Finset.sum_eq_single 2]
  · have hb2 : nth [(0 : ℝ), 0, 1, 0, 0, 0, 0, 0] 2 = 1 := rfl
    rw [hb2, one_mul]
    by_cases h14 : j = 14
    · rw [if_pos h14, h14]
      have hmod : (2 + 14) % 16 = 0 := by norm_num
      rw [hmod]
      rfl
    · rw [if_neg h14]
      apply nth_aImp
      omega
  · intro i hi hne
    rw [nth_bImp i hne, zero_mul]
  · intro hmem
    exact absurd (Finset.mem_range.mpr (by norm_num)) hmem

lemma findPeakOffset_impulse :
    findPeakOffset ((List.range 16).map fun j => if j = 14 then (1 : ℝ) else 0) 8 = -2 := by
  have hlist : (List.range 16).map (fun j => if j = 14 then (1 : ℝ) else 0)
      = [0, 0, 0, 0, 0, 0, 0, 0, 0, 0, 0, 0, 0, 0, 1, 0] := by
    norm_num [List.range_succ]
  rw [hlist]
  unfold findPeakOffset findPeakIndex
  norm_num [findPeakIndexAux]

/-- C1: evidence for the `code_bug` verdict on the lag sign.  For the
length-8 impulse `a = [1,0,...,0]` and `b` equal to `a` shifted right by
2 samples with zero-fill (so `b` lags `a` by exactly 2 samples),
`findPeakOffset(crossCorrelate(a, b), len(b))` evaluates to `-2`, not
the `+2` required by the claim (and by the function's own documentation
"positive means B delayed relative to A"). -/
theorem C1_shift_peak_eval :
    ([(0 : ℝ), 0, 1, 0, 0, 0, 0, 0]
        = List.replicate 2 0 ++ List.take 6 [(1 : ℝ), 0, 0, 0, 0, 0, 0, 0])
      ∧ ∃ corr, crossCorrelate 5 [(1 : ℝ), 0, 0, 0, 0, 0, 0, 0]
          [(0 : ℝ), 0, 1, 0, 0, 0, 0, 0] = some (Except.ok corr)
        ∧ findPeakOffset corr ([(0 : ℝ), 0, 1, 0, 0, 0, 0, 0]).length = -2
        ∧ (-2 : ℤ) ≠ 2 := by
  refine ⟨rfl, (List.range 16).map fun j => if j = 14 then (1 : ℝ) else 0, ?_, ?_, by decide⟩
  · have hlen : ([(1 : ℝ), 0, 0, 0, 0, 0, 0, 0]).length
        + ([(0 : ℝ), 0, 1, 0, 0, 0, 0, 0]).length - 1 = 15 := by simp
    have hcc := crossCorrelate_ok [(1 : ℝ), 0, 0, 0, 0, 0, 0, 0]
      [(0 : ℝ), 0, 1, 0, 0, 0, 0, 0] (by simp) (by simp) 5
      (by rw [hlen, clog_two_fifteen]; norm_num)
    rw [hcc]
    have hN : nextPowerOfTwo (([(1 : ℝ), 0, 0, 0, 0, 0, 0, 0]).length
        + ([(0 : ℝ), 0, 1, 0, 0, 0, 0, 0]).length - 1) = 16 := by
      rw [hlen]
      unfold nextPowerOfTwo
      rw [clog_two_fifteen]
      norm_num
    rw [hN, circCorr_impulse]
  · have h8 : ([(0 : ℝ), 0, 1, 0, 0, 0, 0, 0]).length = 8 := by simp
    rw [h8]
    exact findPeakOffset_impulse

end AVSync
